import Mathlib

/-!
Verification development for the formatting-protocol core of the
vscode-black-formatter language server.

Text is modelled as List Char (one element per Unicode code point, matching
Python str indexing).  The external diff libraries (Levenshtein / difflib)
and the background thread of get_text_edits are modelled by passing the
opcode list the thread had deposited by the join deadline as an explicit
argument (the empty list when the deadline elapsed first).  The external
tool invocations, the site-packages test and the ast.parse check are
modelled as oracle fields of an Env record.
-/

namespace BlackFmt

/-! ### Protocol data types (lsprotocol.types) -/

/-- Position encoding kinds supported by lsp_edit_utils.code_units. -/
inductive PositionEncodingKind
  | utf8
  | utf16
  | utf32
deriving DecidableEq

/-- LSP position: zero-based line and character column (in code units). -/
structure Position where
  line : Nat
  character : Nat
deriving DecidableEq, Inhabited

/-- LSP range; the source field named end is a Lean keyword, rendered stop. -/
structure Range where
  start : Position
  stop : Position
deriving DecidableEq, Inhabited

/-- LSP text edit: a range of the old document and its replacement text. -/
structure TextEdit where
  range : Range
  newText : List Char
deriving DecidableEq, Inhabited

/-- Tag of a diff opcode as produced by Levenshtein.opcodes or
difflib.SequenceMatcher.get_opcodes. -/
inductive OpTag
  | equal
  | replace
  | insert
  | delete
deriving DecidableEq

/-- One diff opcode (tag, old_start, old_end, new_start, new_end). -/
structure Opcode where
  tag : OpTag
  i1 : Nat
  i2 : Nat
  j1 : Nat
  j2 : Nat
deriving DecidableEq

/-- Python slice a[i:j] for i ≤ j (the only form used in this code base). -/
def slice (l : List Char) (i j : Nat) : List Char :=
  (l.drop i).take (j - i)

/-! ### Python str.splitlines(keepends=True) -/

/-- Characters that terminate a line for Python str.splitlines. -/
def isLineBreak (c : Char) : Bool :=
  c == '\n' || c == '\r' || c == '\x0b' || c == '\x0c' ||
  c == '\x1c' || c == '\x1d' || c == '\x1e' || c == '\x85' ||
  c == '\u2028' || c == '\u2029'

/-- Split off the first line (its terminator kept) from the rest of the
text; a CRLF pair counts as a single terminator. -/
def breakLine : List Char → List Char × List Char
  | [] => ([], [])
  | c :: rest =>
    if c = '\r' ∧ rest.take 1 = ['\n'] then
      (['\r', '\n'], rest.tail)
    else if isLineBreak c then ([c], rest)
    else
      let p := breakLine rest
      (c :: p.1, p.2)

theorem take_one_eq_cons {rest : List Char} (h : rest.take 1 = ['\n']) :
    rest = '\n' :: rest.tail := by
  cases rest with
  | nil => simp at h
  | cons a t => simp [List.take] at h; simp [h]

theorem breakLine_append (s : List Char) : (breakLine s).1 ++ (breakLine s).2 = s := by
  induction s with
  | nil => rfl
  | cons c rest ih =>
    by_cases h1 : c = '\r' ∧ rest.take 1 = ['\n']
    · simp only [breakLine, if_pos h1]
      rw [h1.1]
      conv_rhs => rw [take_one_eq_cons h1.2]
      rfl
    · simp only [breakLine, if_neg h1]
      by_cases h2 : isLineBreak c
      · simp [h2]
      · simp [h2, ih]

theorem breakLine_fst_ne (s : List Char) (h : s ≠ []) : (breakLine s).1 ≠ [] := by
  cases s with
  | nil => exact absurd rfl h
  | cons c rest =>
    by_cases h1 : c = '\r' ∧ rest.take 1 = ['\n']
    · simp [breakLine, h1]
    · simp only [breakLine, if_neg h1]
      by_cases h2 : isLineBreak c <;> simp [h2]

theorem breakLine_snd_length (s : List Char) (h : s ≠ []) :
    (breakLine s).2.length < s.length := by
  have happ := breakLine_append s
  have hne := breakLine_fst_ne s h
  have : (breakLine s).1.length + (breakLine s).2.length = s.length := by
    rw [← List.length_append, happ]
  have hpos : 0 < (breakLine s).1.length := List.length_pos.mpr hne
  omega

/-- Fuel-indexed worker for splitlines; structural recursion on the fuel so
that the function evaluates inside the kernel. -/
def splitlinesFuel : Nat → List Char → List (List Char)
  | _, [] => []
  | 0, _ :: _ => []
  | fuel + 1, c :: rest =>
    (breakLine (c :: rest)).1 :: splitlinesFuel fuel (breakLine (c :: rest)).2

/-- Python str.splitlines(True): the physical lines of the text, each line
keeping its terminator; no entry for the empty text. -/
def splitlines (s : List Char) : List (List Char) :=
  splitlinesFuel s.length s

theorem splitlinesFuel_congr (fuel1 : Nat) :
    ∀ (fuel2 : Nat) (s : List Char), s.length ≤ fuel1 → s.length ≤ fuel2 →
      splitlinesFuel fuel1 s = splitlinesFuel fuel2 s := by
  induction fuel1 with
  | zero =>
    intro fuel2 s h1 _
    have : s = [] := List.length_eq_zero.mp (Nat.le_zero.mp h1)
    subst this
    cases fuel2 <;> rfl
  | succ f1 ih =>
    intro fuel2 s h1 h2
    cases s with
    | nil => cases fuel2 <;> rfl
    | cons c rest =>
      cases fuel2 with
      | zero => simp at h2
      | succ f2 =>
        have hlt := breakLine_snd_length (c :: rest) (by simp)
        rw [List.length_cons] at hlt h1 h2
        simp only [splitlinesFuel]
        rw [ih f2 (breakLine (c :: rest)).2 (by omega) (by omega)]

theorem splitlines_nil : splitlines [] = [] := rfl

theorem splitlines_ne (s : List Char) (h : s ≠ []) :
    splitlines s = (breakLine s).1 :: splitlines (breakLine s).2 := by
  cases s with
  | nil => exact absurd rfl h
  | cons c rest =>
    have hlt := breakLine_snd_length (c :: rest) (by simp)
    rw [List.length_cons] at hlt
    show splitlinesFuel (rest.length + 1) (c :: rest) = _
    simp only [splitlinesFuel]
    rw [splitlinesFuel_congr rest.length (breakLine (c :: rest)).2.length
      (breakLine (c :: rest)).2 (by omega) (Nat.le_refl _)]
    rfl

/-- Concatenating the lines of splitlines recovers the text. -/
theorem join_splitlines (s : List Char) : (splitlines s).flatten = s := by
  by_cases h : s = []
  · subst h; simp [splitlines_nil]
  · have hlt : (breakLine s).2.length < s.length := breakLine_snd_length s h
    rw [splitlines_ne s h, List.flatten_cons, join_splitlines (breakLine s).2,
      breakLine_append]
termination_by s.length

/-- Every line produced by splitlines is non-empty. -/
theorem splitlines_ne_nil (s : List Char) : ∀ l ∈ splitlines s, l ≠ [] := by
  by_cases h : s = []
  · subst h; simp [splitlines_nil]
  · have hlt : (breakLine s).2.length < s.length := breakLine_snd_length s h
    rw [splitlines_ne s h]
    intro l hl
    rcases List.mem_cons.mp hl with h1 | h1
    · subst h1; exact breakLine_fst_ne s h
    · exact splitlines_ne_nil (breakLine s).2 l h1
termination_by s.length

/-! ### lsp_edit_utils.get_text_edits and the test client apply_text_edits -/

/-- Number of code units of one character in the given position encoding:
len(c.encode("utf-16-le")) // 2, len(c.encode("utf-8")), or
len(c.encode("utf-32-le")) // 4, following the branch order of the source
(UTF-16 first, then UTF-8, anything else treated as UTF-32). -/
def code_units (position_encoding : PositionEncodingKind) (c : Char) : Nat :=
  match position_encoding with
  | .utf16 => if c.toNat < 0x10000 then 1 else 2
  | .utf8 =>
    if c.toNat < 0x80 then 1
    else if c.toNat < 0x800 then 2
    else if c.toNat < 0x10000 then 3
    else 4
  | .utf32 => 1

/-- Running sums starting at acc: the Python pattern of a list seeded with a
base value and grown by appending last + item, as used for line_offsets and
col_offset. -/
def cumSums : Nat → List Nat → List Nat
  | acc, [] => [acc]
  | acc, n :: rest => acc :: cumSums (acc + n) rest

/-- Python bisect.bisect_right on a sorted list: the number of entries that
are ≤ x (insertion point to the right of any run of equal entries).  Both
call sites pass the sorted line_offsets list. -/
def bisect_right (a : List Nat) (x : Nat) : Nat :=
  (a.takeWhile (fun v => decide (v ≤ x))).length

/-- Per-line col_offset table: running sums of the code-unit widths of the
characters of the line, seeded with 0. -/
def colOffsets (position_encoding : PositionEncodingKind) (line : List Char) : List Nat :=
  cumSums 0 (line.map (code_units position_encoding))

/-- The line_offsets table of get_text_edits (and the offsets table of the
test client apply_text_edits): [0] extended by cumulative keepends line
lengths. -/
def lineOffsets (text : List Char) : List Nat :=
  cumSums 0 ((splitlines text).map List.length)

/-- The code_unit_offsets table of get_text_edits: one col_offset table per
line, with an extra [0] appended for the end-of-document sentinel. -/
def codeUnitOffsets (position_encoding : PositionEncodingKind) (text : List Char) :
    List (List Nat) :=
  (splitlines text).map (colOffsets position_encoding) ++ [[0]]

/-- Inner helper from_offset of get_text_edits, parametrised by the two
precomputed tables it closes over in the source.  List indexing is modelled
with getD; every call site is proved in range, matching Python where an
out-of-range index would raise. -/
def from_offset (line_offsets : List Nat) (code_unit_offsets : List (List Nat))
    (offset : Nat) : Position :=
  let line := bisect_right line_offsets offset - 1
  let col := offset - line_offsets.getD line 0
  let character := (code_unit_offsets.getD line []).getD col 0
  { line := line, character := character }

/-- One element of the list comprehension of get_text_edits: the TextEdit
built from a (non-equal) opcode. -/
def opcodeToEdit (old_text new_text : List Char)
    (position_encoding : PositionEncodingKind) (op : Opcode) : TextEdit :=
  { range :=
      { start := from_offset (lineOffsets old_text)
          (codeUnitOffsets position_encoding old_text) op.i1,
        stop := from_offset (lineOffsets old_text)
          (codeUnitOffsets position_encoding old_text) op.i2 },
    newText := slice new_text op.j1 op.j2 }

/-- lsp_edit_utils.get_text_edits.  The sequences argument is the opcode
list the background diff thread had extended by the join deadline: the
Levenshtein/difflib opcodes when the diff finished in time, [] when the
deadline elapsed first (or the thread machinery raised).  When sequences is
non-empty the non-equal opcodes become edits; otherwise a single edit
spanning the whole old text is returned. -/
def get_text_edits (old_text new_text : List Char)
    (position_encoding : PositionEncodingKind) (sequences : List Opcode) :
    List TextEdit :=
  if sequences = [] then
    [{ range :=
         { start := from_offset (lineOffsets old_text)
             (codeUnitOffsets position_encoding old_text) 0,
           stop := from_offset (lineOffsets old_text)
             (codeUnitOffsets position_encoding old_text) old_text.length },
       newText := new_text }]
  else
    (sequences.filter (fun op => decide (op.tag ≠ OpTag.equal))).map
      (opcodeToEdit old_text new_text position_encoding)

/-- Offset a position denotes in the test client apply_text_edits:
offsets[line] + character. -/
def positionOffset (offsets : List Nat) (pos : Position) : Nat :=
  offsets.getD pos.line 0 + pos.character

/-- One loop iteration of apply_text_edits: splice the edit text between
the offsets its start and end positions denote (computed against the
offsets table of the original text). -/
def applyEdit (offsets : List Nat) (text : List Char) (e : TextEdit) : List Char :=
  text.take (positionOffset offsets e.range.start) ++ e.newText ++
    text.drop (positionOffset offsets e.range.stop)

/-- Test client utils.apply_text_edits: apply the edits in reverse list
order, resolving positions against the offsets table of the original
text. -/
def apply_text_edits (text : List Char) (text_edits : List TextEdit) : List Char :=
  if text_edits = [] then text
  else (text_edits.reverse).foldl (applyEdit (lineOffsets text)) text

/-- Validity of an opcode list for a pair of texts, from position (i, j):
the contract both Levenshtein.opcodes and difflib get_opcodes guarantee —
contiguous spans starting at (i, j), covering both texts to their ends,
each within bounds, with equal-tagged spans having equal slices. -/
def chainb (a b : List Char) : Nat → Nat → List Opcode → Bool
  | i, j, [] => decide (i = a.length) && decide (j = b.length)
  | i, j, op :: rest =>
    decide (op.i1 = i) && decide (op.j1 = j) &&
    decide (i ≤ op.i2) && decide (j ≤ op.j2) &&
    decide (op.i2 ≤ a.length) && decide (op.j2 ≤ b.length) &&
    (if op.tag = OpTag.equal then decide (slice a i op.i2 = slice b j op.j2)
     else true) &&
    chainb a b op.i2 op.j2 rest

/-! ### Facts about the offset tables -/

theorem cumSums_cons_form (acc : Nat) (l : List Nat) :
    ∃ t, cumSums acc l = acc :: t := by
  cases l <;> exact ⟨_, rfl⟩

theorem mem_cumSums_le (acc : Nat) (l : List Nat) :
    ∀ x ∈ cumSums acc l, acc ≤ x := by
  induction l generalizing acc with
  | nil => intro x hx; simp only [cumSums, List.mem_singleton] at hx; omega
  | cons n rest ih =>
    intro x hx
    simp only [cumSums, List.mem_cons] at hx
    rcases hx with h | h
    · omega
    · have := ih (acc + n) x h; omega

theorem mem_cumSums_le_sum (acc : Nat) (l : List Nat) :
    ∀ x ∈ cumSums acc l, x ≤ acc + l.sum := by
  induction l generalizing acc with
  | nil => intro x hx; simp only [cumSums, List.mem_singleton] at hx; omega
  | cons n rest ih =>
    intro x hx
    simp only [cumSums, List.mem_cons, List.sum_cons] at hx ⊢
    rcases hx with h | h
    · omega
    · have := ih (acc + n) x h; omega

theorem cumSums_length (acc : Nat) (l : List Nat) :
    (cumSums acc l).length = l.length + 1 := by
  induction l generalizing acc with
  | nil => rfl
  | cons n rest ih => simp [cumSums, ih]

theorem cumSums_getD_zero (acc : Nat) (l : List Nat) :
    (cumSums acc l).getD 0 0 = acc := by
  cases l <;> rfl

theorem cumSums_getD_length (acc : Nat) (l : List Nat) :
    (cumSums acc l).getD l.length 0 = acc + l.sum := by
  induction l generalizing acc with
  | nil => simp [cumSums]
  | cons n rest ih =>
    simp only [cumSums, List.length_cons, List.getD_cons_succ, List.sum_cons]
    rw [ih]; omega

theorem cumSums_ones_getD (ls : List Nat) (hones : ∀ n ∈ ls, n = 1)
    (a c : Nat) (hc : c ≤ ls.length) :
    (cumSums a ls).getD c 0 = a + c := by
  induction ls generalizing a c with
  | nil =>
    have : c = 0 := by simpa using hc
    subst this; simp [cumSums]
  | cons x rest ih =>
    have hx : x = 1 := hones x (by simp)
    cases c with
    | zero => simp [cumSums]
    | succ c2 =>
      simp only [cumSums, List.getD_cons_succ]
      rw [ih (fun n hn => hones n (by simp [hn])) (a + x) c2
        (by simp at hc; omega)]
      omega

theorem takeWhile_all {p : Nat → Bool} {l : List Nat} (h : ∀ x ∈ l, p x = true) :
    l.takeWhile p = l := by
  induction l with
  | nil => rfl
  | cons a t ih =>
    rw [List.takeWhile_cons, if_pos (h a (by simp))]
    rw [ih (fun x hx => h x (by simp [hx]))]

theorem bisect_right_cons_le {a x : Nat} (t : List Nat) (h : a ≤ x) :
    bisect_right (a :: t) x = bisect_right t x + 1 := by
  simp [bisect_right, List.takeWhile_cons, h]

theorem bisect_right_cons_gt {a x : Nat} (t : List Nat) (h : ¬a ≤ x) :
    bisect_right (a :: t) x = 0 := by
  simp [bisect_right, List.takeWhile_cons, h]

/-- Under the UTF-32 tables, re-encoding the position of an offset with the
offsets table (as apply_text_edits does) recovers the offset; stated over
an arbitrary list of lines with an arbitrary base. -/
theorem decode_aux (lines : List (List Char)) (acc o : Nat)
    (h1 : acc ≤ o) (h2 : o ≤ acc + (lines.map List.length).sum) :
    positionOffset (cumSums acc (lines.map List.length))
      (from_offset (cumSums acc (lines.map List.length))
        ((lines.map (colOffsets .utf32)) ++ [[0]]) o) = o := by
  induction lines generalizing acc with
  | nil =>
    have ho : o = acc := by simp only [List.map_nil, List.sum_nil] at h2; omega
    subst ho
    simp only [List.map_nil, cumSums, List.nil_append, positionOffset, from_offset]
    rw [bisect_right_cons_le [] (Nat.le_refl _)]
    simp [bisect_right]
  | cons l rest ih =>
    simp only [List.map_cons, List.sum_cons] at h2 ⊢
    simp only [cumSums, List.cons_append]
    by_cases hcase : acc + l.length ≤ o
    · -- the offset lies beyond the first line: recurse on the tail tables
      rw [positionOffset, from_offset, bisect_right_cons_le _ h1]
      obtain ⟨t, ht⟩ := cumSums_cons_form (acc + l.length) (rest.map List.length)
      have hbis : 1 ≤ bisect_right (cumSums (acc + l.length) (rest.map List.length)) o := by
        rw [ht, bisect_right_cons_le _ hcase]; omega
      have hk : bisect_right (cumSums (acc + l.length) (rest.map List.length)) o + 1 - 1
          = (bisect_right (cumSums (acc + l.length) (rest.map List.length)) o - 1) + 1 := by
        omega
      rw [hk]
      simp only [List.getD_cons_succ]
      have := ih (acc + l.length) hcase (by omega)
      rw [positionOffset, from_offset] at this
      exact this
    · -- the offset lies within the first line
      rw [positionOffset, from_offset, bisect_right_cons_le _ h1]
      obtain ⟨t, ht⟩ := cumSums_cons_form (acc + l.length) (rest.map List.length)
      rw [ht, bisect_right_cons_gt _ hcase]
      simp only [Nat.zero_add, Nat.sub_self, List.getD_cons_zero]
      rw [colOffsets]
      rw [cumSums_ones_getD (l.map (code_units .utf32))
        (by intro n hn; rcases List.mem_map.mp hn with ⟨c, _, hc⟩; rw [← hc]; rfl)
        0 (o - acc) (by simp; omega)]
      omega

/-- Sum of the keepends line lengths is the text length. -/
theorem sum_splitlines_length (text : List Char) :
    ((splitlines text).map List.length).sum = text.length := by
  rw [← List.length_flatten, join_splitlines]

/-- Decoding positionOffset after from_offset is the identity on in-range
offsets under the UTF-32 encoding. -/
theorem positionOffset_from_offset (text : List Char) (o : Nat)
    (ho : o ≤ text.length) :
    positionOffset (lineOffsets text)
      (from_offset (lineOffsets text) (codeUnitOffsets .utf32 text) o) = o := by
  have := decode_aux (splitlines text) 0 o (Nat.zero_le _)
    (by rw [sum_splitlines_length]; omega)
  simpa [lineOffsets, codeUnitOffsets] using this

/-! ### Round-trip of the synthesized edits -/

theorem slice_append_drop (b : List Char) (j j2 : Nat) (h : j ≤ j2) :
    slice b j j2 ++ b.drop j2 = b.drop j := by
  have hd : b.drop j2 = (b.drop j).drop (j2 - j) := by
    rw [List.drop_drop]
    congr 1
    omega
  rw [slice, hd, List.take_append_drop]

theorem take_eq_take_append_slice (a : List Char) (i i2 : Nat) (h : i ≤ i2) :
    a.take i2 = a.take i ++ slice a i i2 := by
  rw [slice]
  conv_lhs => rw [show i2 = i + (i2 - i) by omega]
  rw [List.take_add]

theorem apply_text_edits_eq (text : List Char) (edits : List TextEdit) :
    apply_text_edits text edits
      = edits.foldr (fun e t => applyEdit (lineOffsets text) t e) text := by
  by_cases h : edits = []
  · subst h; simp [apply_text_edits]
  · rw [apply_text_edits, if_neg h, List.foldl_reverse]

/-- Folding the retained edits of a valid opcode chain from (i, j) over the
old text rebuilds the untouched old prefix followed by the new suffix. -/
theorem roundtrip_aux (a b : List Char) (ops : List Opcode) :
    ∀ i j : Nat, chainb a b i j ops = true →
    ((ops.filter (fun op => decide (op.tag ≠ OpTag.equal))).map
        (opcodeToEdit a b .utf32)).foldr
      (fun e t => applyEdit (lineOffsets a) t e) a
    = a.take i ++ b.drop j := by
  induction ops with
  | nil =>
    intro i j h
    simp only [chainb, Bool.and_eq_true, decide_eq_true_eq] at h
    obtain ⟨hi, hj⟩ := h
    subst hi; subst hj
    simp
  | cons op rest ih =>
    intro i j h
    simp only [chainb, Bool.and_eq_true, decide_eq_true_eq] at h
    obtain ⟨⟨⟨⟨⟨⟨⟨h1, h2⟩, h3⟩, h4⟩, h5⟩, h6⟩, h7⟩, h8⟩ := h
    subst h1
    subst h2
    by_cases htag : op.tag = OpTag.equal
    · -- equal opcodes are filtered out; their spans contribute equal slices
      have heq : slice a op.i1 op.i2 = slice b op.j1 op.j2 := by
        rw [if_pos htag] at h7
        exact of_decide_eq_true h7
      have hp : (decide (op.tag ≠ OpTag.equal)) = false := by simp [htag]
      rw [List.filter_cons, hp]
      simp only [Bool.false_eq_true, if_false]
      rw [ih op.i2 op.j2 h8, take_eq_take_append_slice a op.i1 op.i2 h3, heq,
        List.append_assoc, slice_append_drop b op.j1 op.j2 h4]
    · -- a retained opcode splices its new slice between its old offsets
      have hp : (decide (op.tag ≠ OpTag.equal)) = true := by simp [htag]
      rw [List.filter_cons, hp]
      simp only [if_true, List.map_cons, List.foldr_cons]
      rw [ih op.i2 op.j2 h8]
      have hstart := positionOffset_from_offset a op.i1 (by omega)
      have hstop := positionOffset_from_offset a op.i2 h5
      simp only [applyEdit, opcodeToEdit]
      rw [hstart, hstop]
      have hlen : (a.take op.i2).length = op.i2 := by
        rw [List.length_take, Nat.min_eq_left h5]
      rw [List.take_append_eq_append_take, List.drop_append_eq_append_drop, hlen]
      have h0 : op.i1 - op.i2 = 0 := by omega
      rw [h0, List.take_zero, List.append_nil]
      have hdrop : (a.take op.i2).drop op.i2 = [] := by
        have hdl := List.drop_length (a.take op.i2)
        rwa [hlen] at hdl
      rw [hdrop, Nat.sub_self, List.drop_zero, List.nil_append]
      rw [List.take_take, Nat.min_eq_left h3]
      rw [List.append_assoc, slice_append_drop b op.j1 op.j2 h4]

/-- Applying the single whole-document fallback edit yields the new text
under the UTF-32 encoding. -/
theorem apply_fallback_utf32 (old_text new_text : List Char) :
    apply_text_edits old_text (get_text_edits old_text new_text .utf32 [])
      = new_text := by
  rw [apply_text_edits_eq, get_text_edits, if_pos rfl]
  simp only [List.foldr_cons, List.foldr_nil, applyEdit]
  rw [positionOffset_from_offset old_text 0 (Nat.zero_le _),
    positionOffset_from_offset old_text old_text.length (Nat.le_refl _)]
  simp [List.drop_length]

/-! ### The document start and end positions -/

theorem from_offset_at_zero (text : List Char) (enc : PositionEncodingKind) :
    from_offset (lineOffsets text) (codeUnitOffsets enc text) 0
      = { line := 0, character := 0 } := by
  cases hsp : splitlines text with
  | nil =>
    simp [from_offset, lineOffsets, codeUnitOffsets, hsp, cumSums, bisect_right,
      List.takeWhile_cons]
  | cons l rest =>
    have hl : l ≠ [] := splitlines_ne_nil text l (by rw [hsp]; exact List.mem_cons_self _ _)
    have hpos : 0 < l.length := List.length_pos.mpr hl
    simp only [from_offset, lineOffsets, codeUnitOffsets, hsp, List.map_cons,
      cumSums, Nat.zero_add, List.cons_append]
    rw [bisect_right_cons_le _ (Nat.le_refl 0)]
    obtain ⟨t, ht⟩ := cumSums_cons_form l.length (rest.map List.length)
    rw [ht, bisect_right_cons_gt _ (by omega)]
    simp only [Nat.zero_add, Nat.sub_self, List.getD_cons_zero, Nat.sub_zero,
      colOffsets, cumSums_getD_zero]

theorem lineOffsets_getD_length (text : List Char) :
    (lineOffsets text).getD (splitlines text).length 0 = text.length := by
  have hc := cumSums_getD_length 0 ((splitlines text).map List.length)
  rw [List.length_map] at hc
  rw [lineOffsets, hc, Nat.zero_add, sum_splitlines_length]

theorem from_offset_at_length (text : List Char) (enc : PositionEncodingKind) :
    from_offset (lineOffsets text) (codeUnitOffsets enc text) text.length
      = { line := (splitlines text).length, character := 0 } := by
  have hall : ∀ x ∈ cumSums 0 ((splitlines text).map List.length),
      (fun v => decide (v ≤ text.length)) x = true := by
    intro x hx
    have hle := mem_cumSums_le_sum 0 _ x hx
    rw [sum_splitlines_length] at hle
    simp only [decide_eq_true_eq]
    omega
  have hbis : bisect_right (lineOffsets text) text.length
      = (splitlines text).length + 1 := by
    rw [lineOffsets, bisect_right, takeWhile_all hall, cumSums_length,
      List.length_map]
  have hgetD := lineOffsets_getD_length text
  have hcuo : (codeUnitOffsets enc text).getD (splitlines text).length [] = [0] := by
    rw [codeUnitOffsets,
      List.getD_append_right _ _ _ _ (by rw [List.length_map])]
    rw [List.length_map, Nat.sub_self]
    rfl
  simp only [from_offset, hbis, Nat.add_sub_cancel, hgetD, hcuo, Nat.sub_self,
    List.getD_cons_zero]

/-! ### Workspace settings model (lsp_server.py) -/

/-- File-system path, as the list of its components. -/
abbrev Path := List (List Char)

/-- Per-workspace configuration record stored in WORKSPACE_SETTINGS.  The
workspace field holds the workspace uri, modelled as its file-system path
(uris.to_fs_path / from_fs_path and normalize_path are abstracted as the
identity). -/
structure Settings where
  cwd : Path
  workspace : Path
  workspaceFS : Path
  path : List (List Char)
  interpreter : List (List Char)
  args : List (List Char)
  importStrategy : List Char
  showNotifications : List Char
deriving DecidableEq

/-- Defaults drawn from GLOBAL_SETTINGS by _get_global_defaults. -/
structure GlobalSettings where
  path : List (List Char)
  interpreter : List (List Char)
  args : List (List Char)
  importStrategy : List Char
  showNotifications : List Char
deriving DecidableEq

/-- Python dict lookup on an association list with distinct keys. -/
def alookup {β : Type} (l : List (Path × β)) (k : Path) : Option β :=
  match l with
  | [] => none
  | (k2, v) :: rest => if k2 = k then some v else alookup rest k

/-- Record synthesized by _get_settings_by_document (and by
_update_workspace_settings for an empty configuration): global defaults
rooted at the given key. -/
def synthesizedSettings (g : GlobalSettings) (key : Path) : Settings :=
  { cwd := key, workspace := key, workspaceFS := key, path := g.path,
    interpreter := g.interpreter, args := g.args,
    importStrategy := g.importStrategy,
    showNotifications := g.showNotifications }

/-- pathlib parent: drop the last component, fixed point at the root. -/
def pparent (p : Path) : Path :=
  if p.length ≤ 1 then p else p.dropLast

/-- Fuel-indexed ancestor walk of _get_document_key: while the path is not
its own parent, return it when it is a known workspaceFS key, else retry
on its parent. -/
def findKeyFuel (workspaces : List Path) : Nat → Path → Option Path
  | 0, _ => none
  | fuel + 1, p =>
    if p.length ≤ 1 then none
    else if p ∈ workspaces then some p
    else findKeyFuel workspaces fuel p.dropLast

def findKey (workspaces : List Path) (p : Path) : Option Path :=
  findKeyFuel workspaces p.length p

/-- lsp_server._get_document_key. -/
def getDocumentKey (ws : List (Path × Settings)) (p : Path) : Option Path :=
  if ws = [] then none
  else findKey (ws.map (fun e => e.2.workspaceFS)) p

/-- lsp_server._get_settings_by_document.  The docPath argument none covers
both document None and document.path None; a none result models the lookup
raising (IndexError on an empty store, KeyError on an inconsistent one) —
the theorems rule those out under the store invariants. -/
def getSettingsByDocument (ws : List (Path × Settings)) (g : GlobalSettings)
    (docPath : Option Path) : Option Settings :=
  match docPath with
  | none => ws.head?.map Prod.snd
  | some p =>
    match getDocumentKey ws p with
    | none => some (synthesizedSettings g (pparent p))
    | some key => alookup ws key

/-- lsp_server._update_workspace_settings: store one record per client
workspace, keyed (and stamped) with its workspace path, or a single
cwd-rooted default record when the client sent no settings. -/
def updateWorkspaceSettings (g : GlobalSettings) (cwdKey : Path)
    (settings : List Settings) : List (Path × Settings) :=
  if settings = [] then
    [(cwdKey, synthesizedSettings g cwdKey)]
  else
    settings.map (fun s => (s.workspace, { s with workspaceFS := s.workspace }))

/-! ### Tool invocation model (lsp_server.py, utils.py) -/

/-- Version triple (major, minor, micro). -/
abbrev Version := Nat × Nat × Nat

/-- Python tuple comparison a >= b, lexicographic. -/
def verGe : Version → Version → Bool
  | (a1, a2, a3), (b1, b2, b3) =>
    if a1 ≠ b1 then decide (b1 < a1)
    else if a2 ≠ b2 then decide (b2 < a2)
    else decide (b3 ≤ a3)

/-- Minimum black version supporting the --line-ranges option. -/
def LINE_RANGES_MIN_VERSION : Version := (23, 11, 0)

/-- Result of utils.run_path / utils.run_module. -/
structure RunResult where
  stdout : List Char
  stderr : List Char
deriving DecidableEq

/-- Result shape of jsonrpc.run_over_json_rpc. -/
structure RpcRunResult where
  stdout : List Char
  stderr : List Char
  exception : Option (List Char)
deriving DecidableEq

/-- Python exceptions the modelled code can raise. -/
inductive PyErr
  | keyError
  | indexError
  | exception (msg : List Char)
deriving DecidableEq

/-- lsp_server._to_run_result_with_logging: an rpc exception is logged as
an error and becomes the stderr of the result; otherwise stderr is passed
through (an empty stderr yields the empty error string). -/
def toRunResultWithLogging (r : RpcRunResult) : RunResult :=
  match r.exception with
  | some e => { stdout := r.stdout, stderr := e }
  | none => { stdout := r.stdout, stderr := r.stderr }

/-- Text document snapshot. -/
structure Document where
  uri : List Char
  path : Option Path
  source : List Char

/-- Environment of a request: the settings store and the external
collaborators (diff library, tool runners, interpreter and stdlib-path
tests).  The diff field returns the opcodes the background thread deposits
for a given old/new pair ([] when the deadline elapses first). -/
structure Env where
  ws : List (Path × Settings)
  globalDefaults : GlobalSettings
  versionLookup : List (Path × Version)
  diff : List Char → List Char → List Opcode
  runPath : List (List Char) → Except PyErr RunResult
  runRpc : List (List Char) → RpcRunResult
  runModule : List (List Char) → Except PyErr RunResult
  isStdlibFile : Option Path → Bool
  isPython : List Char → Bool
  isCurrentInterpreter : List Char → Bool

def notebookCellScheme : List Char := "vscode-notebook-cell".toList

def crlf : List Char := ['\r', '\n']

def lf : List Char := ['\n']

/-- Path rendered as the string handed to the tool (separator abstracted
as a slash). -/
def pathToString (p : Path) : List Char := List.intercalate ['/'] p

/-- lsp_server._get_line_endings: crlf when the last two characters of the
first line are a CRLF pair, else lf; none when there are no lines (the
IndexError on lines[0] is caught and returned as None). -/
def getLineEndings (lines : List (List Char)) : Option (List Char) :=
  match lines with
  | [] => none
  | l :: _ => if l.drop (l.length - 2) = crlf then some crlf else some lf

/-- Python str.replace via fuel-indexed structural recursion: replace
non-overlapping occurrences left to right.  Only ever called with the
non-empty patterns crlf and lf (Python treats an empty pattern
differently; that case cannot arise here). -/
def strReplaceFuel (old new : List Char) : Nat → List Char → List Char
  | _, [] => []
  | 0, s => s
  | fuel + 1, c :: rest =>
    if old ≠ [] ∧ old.isPrefixOf (c :: rest) then
      new ++ strReplaceFuel old new fuel ((c :: rest).drop old.length)
    else
      c :: strReplaceFuel old new fuel rest

def strReplace (s old new : List Char) : List Char :=
  strReplaceFuel old new s.length s

/-- lsp_server._match_line_endings. -/
def matchLineEndings (source text : List Char) : List Char :=
  let expected := getLineEndings (splitlines source)
  let actual := getLineEndings (splitlines text)
  match actual, expected with
  | some a, some e => if a = e then text else strReplace text a e
  | _, _ => text

/-- Post-processing of the tool output in _formatting_helper: match the
document line endings, then strip one trailing line ending when the
document is a notebook cell. -/
def processedOutput (document : Document) (stdout : List Char) : List Char :=
  let new_source := matchLineEndings document.source stdout
  if notebookCellScheme.isPrefixOf document.uri then
    if crlf.isSuffixOf new_source then new_source.take (new_source.length - 2)
    else if lf.isSuffixOf new_source then new_source.take (new_source.length - 1)
    else new_source
  else new_source

/-- lsp_server._get_args_by_file_extension.  A missing path would raise in
the source; the handlers under verification never reach that case. -/
def argsByFileExtension (document : Document) : List (List Char) :=
  if notebookCellScheme.isPrefixOf document.uri then []
  else
    match document.path with
    | none => []
    | some p =>
      let pl := (pathToString p).map Char.toLower
      if (".py".toList).isSuffixOf pl then []
      else if (".pyi".toList).isSuffixOf pl then ["--pyi".toList]
      else if (".ipynb".toList).isSuffixOf pl then ["--ipynb".toList]
      else []

/-- lsp_server._get_filename_for_black. -/
def filenameForBlack (document : Document) : List Char :=
  match document.path with
  | none => []
  | some p =>
    let ps := pathToString p
    if notebookCellScheme.isPrefixOf document.uri ∧ (".ipynb".toList).isSuffixOf ps then
      ps.take (ps.length - 6) ++ ".py".toList
    else ps

def stdinFilenameFlag : List Char := "--stdin-filename".toList

def lineRangesFlag : List Char := "--line-ranges".toList

def TOOL_MODULE : List Char := "black".toList

def TOOL_ARGS : List (List Char) := []

/-- The extra_args vector built at the top of _formatting_helper. -/
def helperExtraArgs (document : Document) (args : List (List Char)) :
    List (List Char) :=
  args ++ argsByFileExtension document ++ [stdinFilenameFlag, filenameForBlack document]

/-- The argv vector built in _run_tool_on_document from the selected
settings (path mode runs the configured executable vector, the other two
modes run the black module). -/
def buildArgv (settings : Settings) (extra_args : List (List Char))
    (use_stdin : Bool) : List (List Char) :=
  let argv := (if settings.path ≠ [] then settings.path else [TOOL_MODULE])
    ++ TOOL_ARGS ++ settings.args ++ extra_args
  if use_stdin then argv ++ [['-']] else argv

/-- lsp_server._run_tool_on_document: stdlib and non-Python documents
short-circuit to None; otherwise one of three invocation modes runs the
tool.  In path mode the source has no exception handler around
utils.run_path, so a raise propagates; in rpc mode remote failures come
back inside the RpcRunResult; in module mode an exception is logged and
re-raised. -/
def runToolOnDocument (env : Env) (document : Document) (use_stdin : Bool)
    (extra_args : List (List Char)) : Except PyErr (Option RunResult) :=
  if env.isStdlibFile document.path then .ok none
  else if ¬ env.isPython document.source then .ok none
  else
    match getSettingsByDocument env.ws env.globalDefaults document.path with
    | none => .error .indexError
    | some settings =>
      let argv := buildArgv settings extra_args use_stdin
      if settings.path ≠ [] then
        (env.runPath argv).map some
      else if settings.interpreter ≠ [] ∧
          ¬ env.isCurrentInterpreter settings.interpreter.headI then
        .ok (some (toRunResultWithLogging (env.runRpc argv)))
      else
        match env.runModule argv with
        | .error e => .error e
        | .ok result => .ok (some result)

/-- lsp_server._formatting_helper: run the tool on the document (over
stdin), post-process its stdout, and emit UTF-16 edits unless the result
is missing, empty, identical to the source, or diffs to no edits — all of
which yield None. -/
def formattingHelper (env : Env) (document : Document)
    (args : List (List Char)) : Except PyErr (Option (List TextEdit)) :=
  match runToolOnDocument env document true (helperExtraArgs document args) with
  | .error e => .error e
  | .ok none => .ok none
  | .ok (some result) =>
    if result.stdout = [] then .ok none
    else
      let new_source := processedOutput document result.stdout
      if new_source = document.source then .ok none
      else
        let edits := get_text_edits document.source new_source .utf16
          (env.diff document.source new_source)
        if edits = [] then .ok none else .ok (some edits)

/-- lsp_server.formatting handler (whole-document formatting). -/
def formatting (env : Env) (document : Document) :
    Except PyErr (Option (List TextEdit)) :=
  formattingHelper env document []

/-- Range argument string of range_formatting: start line+1 - end line+1. -/
def rangeArg (r : Range) : List Char :=
  (Nat.repr (r.start.line + 1)).toList ++ ['-'] ++ (Nat.repr (r.stop.line + 1)).toList

/-- lsp_server.range_formatting handler; the Bool records whether the
below-minimum-version downgrade warning was logged. -/
def rangeFormatting (env : Env) (document : Document) (r : Range) :
    Bool × Except PyErr (Option (List TextEdit)) :=
  match getSettingsByDocument env.ws env.globalDefaults document.path with
  | none => (false, .error .indexError)
  | some settings =>
    match alookup env.versionLookup settings.workspaceFS with
    | none => (false, .error .keyError)
    | some version =>
      if verGe version LINE_RANGES_MIN_VERSION then
        (false, formattingHelper env document [lineRangesFlag, rangeArg r])
      else
        (true, formattingHelper env document [])

/-- lsp_server.ranges_formatting handler. -/
def rangesFormatting (env : Env) (document : Document) (rs : List Range) :
    Bool × Except PyErr (Option (List TextEdit)) :=
  match getSettingsByDocument env.ws env.globalDefaults document.path with
  | none => (false, .error .indexError)
  | some settings =>
    match alookup env.versionLookup settings.workspaceFS with
    | none => (false, .error .keyError)
    | some version =>
      if verGe version LINE_RANGES_MIN_VERSION then
        (false, formattingHelper env document
          ((rs.map (fun r => [lineRangesFlag, rangeArg r])).flatten))
      else
        (true, formattingHelper env document [])

/-! ### Edit shapes and chain order -/

/-- Shape of an edit with the character columns erased: line numbers and
replacement text only. -/
structure EditShape where
  startLine : Nat
  stopLine : Nat
  newText : List Char
deriving DecidableEq

def editShape (e : TextEdit) : EditShape :=
  { startLine := e.range.start.line, stopLine := e.range.stop.line,
    newText := e.newText }

theorem chainb_mem_i1_ge (a b : List Char) (ops : List Opcode) :
    ∀ i j, chainb a b i j ops = true → ∀ op ∈ ops, i ≤ op.i1 := by
  induction ops with
  | nil => intro i j _ op hmem; cases hmem
  | cons op rest ih =>
    intro i j h op2 hmem
    simp only [chainb, Bool.and_eq_true, decide_eq_true_eq] at h
    obtain ⟨⟨⟨⟨⟨⟨⟨h1, h2⟩, h3⟩, h4⟩, h5⟩, h6⟩, h7⟩, h8⟩ := h
    rcases List.mem_cons.mp hmem with heq | hmem2
    · subst heq; omega
    · have := ih op.i2 op.j2 h8 op2 hmem2; omega

theorem chainb_pairwise (a b : List Char) (ops : List Opcode) :
    ∀ i j, chainb a b i j ops = true →
      ops.Pairwise (fun x y => x.i1 ≤ y.i1) := by
  induction ops with
  | nil => intro i j _; exact List.Pairwise.nil
  | cons op rest ih =>
    intro i j h
    simp only [chainb, Bool.and_eq_true, decide_eq_true_eq] at h
    obtain ⟨⟨⟨⟨⟨⟨⟨h1, h2⟩, h3⟩, h4⟩, h5⟩, h6⟩, h7⟩, h8⟩ := h
    refine List.Pairwise.cons ?_ (ih op.i2 op.j2 h8)
    intro y hy
    have := chainb_mem_i1_ge a b rest op.i2 op.j2 h8 y hy
    omega

/-! ### Concrete sample data -/

/-- Concrete scenario of the spec: old text x=1 with newline. -/
def sampleOld : List Char := "x=1\n".toList

def sampleNew : List Char := "x = 1\n".toList

/-- A valid opcode chain for the sample pair. -/
def sampleOps : List Opcode :=
  [⟨.equal, 0, 1, 0, 1⟩, ⟨.replace, 1, 2, 1, 4⟩, ⟨.equal, 2, 4, 4, 6⟩]

/-- Pair with a non-ASCII character for the UTF-8 counterexample. -/
def exOldC1 : List Char := "é=1".toList

def exNewC1 : List Char := "é = 1".toList

def exOpsC1 : List Opcode :=
  [⟨.equal, 0, 1, 0, 1⟩, ⟨.replace, 1, 2, 1, 4⟩, ⟨.equal, 2, 3, 4, 5⟩]

/-! ### Claim theorems: diff layer -/

/-- C1 (counterexample): with the UTF-8 encoding the claim fails — for the
old/new pair é=1 / é = 1 and a valid opcode chain, applying the returned
edits with the cited test-client apply_text_edits does not reproduce the
new text, because character columns are UTF-8 code-unit counts while
apply_text_edits adds them to code-point offsets. -/
theorem C1_counterexample :
    chainb exOldC1 exNewC1 0 0 exOpsC1 = true ∧
    apply_text_edits exOldC1
      (get_text_edits exOldC1 exNewC1 .utf8 exOpsC1) ≠ exNewC1 := by
  constructor
  · decide
  · decide

/-- C1 (amended): under the UTF-32 encoding — the one whose character
columns are code-point counts, and the one the round-trip tests of the
repository pass to apply_text_edits — applying the edits returned by
get_text_edits to the old text in reverse old-text order yields exactly
the new text, both when the diff completed (any valid opcode chain) and
when it timed out (empty opcode list, whole-document fallback edit). -/
theorem C1_amended_roundtrip_utf32 (old_text new_text : List Char)
    (sequences : List Opcode)
    (h : chainb old_text new_text 0 0 sequences = true ∨ sequences = []) :
    apply_text_edits old_text
      (get_text_edits old_text new_text .utf32 sequences) = new_text := by
  rcases h with hchain | hnil
  · by_cases hseq : sequences = []
    · subst hseq; exact apply_fallback_utf32 old_text new_text
    · rw [apply_text_edits_eq, get_text_edits, if_neg hseq]
      have hr := roundtrip_aux old_text new_text sequences 0 0 hchain
      simpa using hr
  · subst hnil; exact apply_fallback_utf32 old_text new_text

/-- C1 (witness): the amended round-trip at the concrete non-ASCII pair. -/
theorem C1_amended_witness :
    apply_text_edits exOldC1
      (get_text_edits exOldC1 exNewC1 .utf32 exOpsC1) = exNewC1 :=
  C1_amended_roundtrip_utf32 exOldC1 exNewC1 exOpsC1 (Or.inl (by decide))

/-- C2: when the background diff produced no opcodes by the join deadline,
get_text_edits returns exactly one edit: its newText is the entire new
text, its start is position (0,0) (offset 0), and its end decodes — with
the offsets table of the old text — to the full old-text length, for every
encoding. -/
theorem C2_timeout_fallback (old_text new_text : List Char)
    (enc : PositionEncodingKind) :
    (get_text_edits old_text new_text enc []).length = 1 ∧
    (get_text_edits old_text new_text enc []).headI.newText = new_text ∧
    (get_text_edits old_text new_text enc []).headI.range.start
      = { line := 0, character := 0 } ∧
    positionOffset (lineOffsets old_text)
      ((get_text_edits old_text new_text enc []).headI.range.start) = 0 ∧
    positionOffset (lineOffsets old_text)
      ((get_text_edits old_text new_text enc []).headI.range.stop)
      = old_text.length := by
  rw [get_text_edits, if_pos rfl]
  refine ⟨rfl, rfl, from_offset_at_zero old_text enc, ?_, ?_⟩
  · show positionOffset (lineOffsets old_text)
      (from_offset (lineOffsets old_text) (codeUnitOffsets enc old_text) 0) = 0
    rw [from_offset_at_zero]
    show (lineOffsets old_text).getD 0 0 + 0 = 0
    rw [lineOffsets, cumSums_getD_zero]
  · show positionOffset (lineOffsets old_text)
      (from_offset (lineOffsets old_text) (codeUnitOffsets enc old_text)
        old_text.length) = old_text.length
    rw [from_offset_at_length]
    show (lineOffsets old_text).getD (splitlines old_text).length 0 + 0
      = old_text.length
    rw [lineOffsets_getD_length, Nat.add_zero]

/-- C6: when the diff completed, the equal opcodes are excluded and the
returned edits are, in order, exactly the images of the remaining opcodes
of the chain, whose old-text start offsets are ascending. -/
theorem C6_equal_filtered_order (old_text new_text : List Char)
    (enc : PositionEncodingKind) (sequences : List Opcode)
    (hchain : chainb old_text new_text 0 0 sequences = true)
    (hne : sequences ≠ []) :
    get_text_edits old_text new_text enc sequences
      = (sequences.filter (fun op => decide (op.tag ≠ OpTag.equal))).map
          (opcodeToEdit old_text new_text enc) ∧
    ((sequences.filter (fun op => decide (op.tag ≠ OpTag.equal))).map
        Opcode.i1).Pairwise (· ≤ ·) := by
  refine ⟨by rw [get_text_edits, if_neg hne], ?_⟩
  have hp := chainb_pairwise old_text new_text sequences 0 0 hchain
  have hf : (sequences.filter (fun op => decide (op.tag ≠ OpTag.equal))).Pairwise
      (fun x y => x.i1 ≤ y.i1) :=
    hp.sublist (List.filter_sublist sequences)
  exact List.pairwise_map.mpr hf

/-- C6 (witness) at the concrete scenario of the spec. -/
theorem C6_witness :
    get_text_edits sampleOld sampleNew .utf16 sampleOps
      = (sampleOps.filter (fun op => decide (op.tag ≠ OpTag.equal))).map
          (opcodeToEdit sampleOld sampleNew .utf16) ∧
    ((sampleOps.filter (fun op => decide (op.tag ≠ OpTag.equal))).map
        Opcode.i1).Pairwise (· ≤ ·) :=
  C6_equal_filtered_order sampleOld sampleNew .utf16 sampleOps
    (by decide) (by decide)

/-- C7: the per-character code-unit widths are the UTF-8 byte length, the
UTF-16 surrogate-aware unit count (2 outside the Basic Multilingual
Plane), and 1 per code point; consequently, for a fixed old/new pair and
opcode list, edits computed under any two encodings differ only in their
character columns (same line numbers, same replacement texts, in the same
order). -/
theorem C7_code_units_encoding :
    (∀ c : Char, code_units .utf8 c = c.utf8Size) ∧
    (∀ c : Char, code_units .utf16 c = if c.toNat < 0x10000 then 1 else 2) ∧
    (∀ c : Char, code_units .utf32 c = 1) ∧
    (∀ (old_text new_text : List Char) (sequences : List Opcode)
        (e1 e2 : PositionEncodingKind),
      (get_text_edits old_text new_text e1 sequences).map editShape
        = (get_text_edits old_text new_text e2 sequences).map editShape) := by
  refine ⟨?_, fun c => rfl, fun c => rfl, ?_⟩
  · intro c
    simp only [code_units, Char.utf8Size]
    have e1 : (c.val ≤ UInt32.ofNatCore 0x7F (by decide)) ↔ c.toNat ≤ 0x7F := Iff.rfl
    have e2 : (c.val ≤ UInt32.ofNatCore 0x7FF (by decide)) ↔ c.toNat ≤ 0x7FF := Iff.rfl
    have e3 : (c.val ≤ UInt32.ofNatCore 0xFFFF (by decide)) ↔ c.toNat ≤ 0xFFFF := Iff.rfl
    by_cases h1 : c.toNat ≤ 0x7F
    · rw [if_pos (e1.mpr h1), if_pos (show c.toNat < 0x80 by omega)]
    · rw [if_neg (fun hc => h1 (e1.mp hc)), if_neg (show ¬c.toNat < 0x80 by omega)]
      by_cases h2 : c.toNat ≤ 0x7FF
      · rw [if_pos (e2.mpr h2), if_pos (show c.toNat < 0x800 by omega)]
      · rw [if_neg (fun hc => h2 (e2.mp hc)), if_neg (show ¬c.toNat < 0x800 by omega)]
        by_cases h3 : c.toNat ≤ 0xFFFF
        · rw [if_pos (e3.mpr h3), if_pos (show c.toNat < 0x10000 by omega)]
        · rw [if_neg (fun hc => h3 (e3.mp hc)),
            if_neg (show ¬c.toNat < 0x10000 by omega)]
  · intro old_text new_text sequences e1 e2
    by_cases h : sequences = []
    · subst h
      rw [get_text_edits, if_pos rfl, get_text_edits, if_pos rfl]
      rfl
    · rw [get_text_edits, if_neg h, get_text_edits, if_neg h,
        List.map_map, List.map_map]
      congr 1

/-- C9: diffing a non-empty text against itself yields the single
whole-text equal opcode, which get_text_edits filters out, returning the
empty list — not a separate no-edits signal; the None versus empty-list
distinction is enforced by the caller: whenever get_text_edits returns []
inside _formatting_helper, the helper answers None. -/
theorem C9_identity_empty_edits (t : List Char) (enc : PositionEncodingKind)
    (ht : t ≠ []) :
    get_text_edits t t enc [⟨OpTag.equal, 0, t.length, 0, t.length⟩] = [] ∧
    (∀ (env : Env) (document : Document) (args : List (List Char))
        (result : RunResult),
      runToolOnDocument env document true (helperExtraArgs document args)
        = .ok (some result) →
      result.stdout ≠ [] →
      processedOutput document result.stdout ≠ document.source →
      get_text_edits document.source (processedOutput document result.stdout)
        .utf16
        (env.diff document.source (processedOutput document result.stdout))
        = [] →
      formattingHelper env document args = .ok none) := by
  constructor
  · rw [get_text_edits, if_neg (List.cons_ne_nil _ _)]
    rfl
  · intro env document args result hrun hstdout hneq hedits
    simp only [formattingHelper, hrun, if_neg hstdout, if_neg hneq, hedits,
      if_pos]

/-- C9 (witness): the identity diff of the concrete sample text. -/
theorem C9_witness :
    get_text_edits sampleOld sampleOld .utf16
      [⟨OpTag.equal, 0, sampleOld.length, 0, sampleOld.length⟩] = [] :=
  (C9_identity_empty_edits sampleOld .utf16 (by decide)).1

/-! ### Server-layer support lemmas and sample data -/

instance {ε α : Type} [DecidableEq ε] [DecidableEq α] :
    DecidableEq (Except ε α) := fun x y =>
  match x, y with
  | .ok a, .ok b =>
    if h : a = b then isTrue (by rw [h])
    else isFalse (fun hc => h (Except.ok.inj hc))
  | .error a, .error b =>
    if h : a = b then isTrue (by rw [h])
    else isFalse (fun hc => h (Except.error.inj hc))
  | .ok _, .error _ => isFalse (fun hc => Except.noConfusion hc)
  | .error _, .ok _ => isFalse (fun hc => Except.noConfusion hc)

theorem findKeyFuel_mem (workspaces : List Path) :
    ∀ (fuel : Nat) (p k : Path), findKeyFuel workspaces fuel p = some k →
      k ∈ workspaces := by
  intro fuel
  induction fuel with
  | zero => intro p k h; cases h
  | succ f ih =>
    intro p k h
    simp only [findKeyFuel] at h
    by_cases h1 : p.length ≤ 1
    · rw [if_pos h1] at h; cases h
    · rw [if_neg h1] at h
      by_cases h2 : p ∈ workspaces
      · rw [if_pos h2] at h
        cases h
        exact h2
      · rw [if_neg h2] at h
        exact ih p.dropLast k h

theorem alookup_isSome_of_mem (ws : List (Path × Settings)) (k : Path)
    (hwf : ∀ e ∈ ws, e.2.workspaceFS = e.1)
    (hmem : k ∈ ws.map (fun e => e.2.workspaceFS)) :
    (alookup ws k).isSome = true := by
  induction ws with
  | nil => cases hmem
  | cons e rest ih =>
    rcases List.mem_cons.mp hmem with heq | hmem2
    · have hfs := hwf e (List.mem_cons_self _ _)
      rw [alookup, if_pos (by rw [heq]; exact hfs.symm)]
      rfl
    · rw [alookup]
      by_cases hk : e.1 = k
      · rw [if_pos hk]; rfl
      · rw [if_neg hk]
        exact ih (fun e2 he2 => hwf e2 (List.mem_cons_of_mem _ he2)) hmem2

/-- Workspace root and document path used by the concrete samples. -/
def wsRoot : Path := [[], ['w']]

def docPath : Path := [[], ['w'], "f.py".toList]

def settingsW : Settings :=
  { cwd := wsRoot, workspace := wsRoot, workspaceFS := wsRoot, path := [],
    interpreter := [], args := [], importStrategy := "useBundled".toList,
    showNotifications := "off".toList }

def globalG : GlobalSettings :=
  { path := [], interpreter := [], args := [],
    importStrategy := "useBundled".toList,
    showNotifications := "off".toList }

def sampleDoc : Document :=
  { uri := "file:///w/f.py".toList, path := some docPath, source := sampleOld }

def sampleRange : Range :=
  { start := { line := 0, character := 0 }, stop := { line := 0, character := 0 } }

/-- Environment whose module-mode tool reformats sampleOld into sampleNew
and whose diff thread returns the sample chain in time. -/
def envModule : Env :=
  { ws := [(wsRoot, settingsW)], globalDefaults := globalG,
    versionLookup := [(wsRoot, (22, 3, 0))],
    diff := fun _ _ => sampleOps,
    runPath := fun _ => .ok { stdout := [], stderr := [] },
    runRpc := fun _ => { stdout := [], stderr := [], exception := none },
    runModule := fun _ => .ok { stdout := sampleNew, stderr := [] },
    isStdlibFile := fun _ => false,
    isPython := fun _ => true,
    isCurrentInterpreter := fun _ => true }

/-- Environment whose tool output equals the document source. -/
def envIdem : Env :=
  { envModule with runModule := fun _ => .ok { stdout := sampleOld, stderr := [] } }

/-- Environment with no cached tool version for the workspace. -/
def envNoVersion : Env := { envModule with versionLookup := [] }

def boomMsg : List Char := "boom".toList

/-- Settings selecting the external-executable path mode. -/
def settingsP : Settings := { settingsW with path := [TOOL_MODULE] }

/-- Environment in path mode whose executable launch raises. -/
def envPathErr : Env :=
  { envModule with
    ws := [(wsRoot, settingsP)],
    runPath := fun _ => .error (.exception boomMsg) }

def altInterp : List Char := "python39".toList

def traceMsg : List Char := "Traceback".toList

/-- Settings selecting the alternate-interpreter rpc mode. -/
def settingsR : Settings := { settingsW with interpreter := [altInterp] }

/-- Environment in rpc mode whose remote tool raised an exception. -/
def envRpcExc : Env :=
  { envModule with
    ws := [(wsRoot, settingsR)],
    isCurrentInterpreter := fun _ => false,
    runRpc := fun _ => { stdout := [], stderr := [], exception := some traceMsg } }

/-! ### Claim theorems: server layer -/

/-- C3: the formatting helper returns the no-edits signal None — never an
empty edit list — whenever the tool result is missing its stdout, is
empty, or the post-processed output equals the document source. -/
theorem C3_no_edits_signal (env : Env) (document : Document)
    (args : List (List Char)) :
    (∀ result : RunResult,
      runToolOnDocument env document true (helperExtraArgs document args)
        = .ok (some result) →
      result.stdout = [] ∨ processedOutput document result.stdout = document.source →
      formattingHelper env document args = .ok none) ∧
    (∀ edits : List TextEdit,
      formattingHelper env document args = .ok (some edits) → edits ≠ []) := by
  constructor
  · intro result hrun hcase
    simp only [formattingHelper, hrun]
    rcases hcase with h | h
    · rw [if_pos h]
    · by_cases hstd : result.stdout = []
      · rw [if_pos hstd]
      · rw [if_neg hstd, if_pos h]
  · intro edits h
    rcases hr : runToolOnDocument env document true (helperExtraArgs document args)
      with e | o
    · simp only [formattingHelper, hr] at h
      exact Except.noConfusion h
    · cases o with
      | none =>
        simp only [formattingHelper, hr] at h
        exact Option.noConfusion (Except.ok.inj h)
      | some result =>
        simp only [formattingHelper, hr] at h
        by_cases h1 : result.stdout = []
        · rw [if_pos h1] at h; simp at h
        · rw [if_neg h1] at h
          by_cases h2 : processedOutput document result.stdout = document.source
          · rw [if_pos h2] at h; simp at h
          · rw [if_neg h2] at h
            by_cases h3 : get_text_edits document.source
                (processedOutput document result.stdout) .utf16
                (env.diff document.source
                  (processedOutput document result.stdout)) = []
            · rw [if_pos h3] at h; simp at h
            · rw [if_neg h3] at h
              simp only [Except.ok.injEq, Option.some.injEq] at h
              rw [← h]
              exact h3

/-- C3 (witness): a tool output identical to the source resolves to the
None signal. -/
theorem C3_witness : formattingHelper envIdem sampleDoc [] = .ok none :=
  (C3_no_edits_signal envIdem sampleDoc []).1
    { stdout := sampleOld, stderr := [] } (by decide) (Or.inr (by decide))

/-- C4 (counterexample): a range-format (or multi-range-format) request on
a workspace with no cached tool version raises a KeyError out of the
handler — the request fails instead of falling back. -/
theorem C4_counterexample :
    rangeFormatting envNoVersion sampleDoc sampleRange
      = (false, .error .keyError) ∧
    rangesFormatting envNoVersion sampleDoc [sampleRange]
      = (false, .error .keyError) := by
  constructor
  · decide
  · decide

/-- C4 (amended): when a version is cached for the workspace of the
document and it is below (23, 11, 0), the range and multi-range handlers
log the downgrade warning and produce exactly the result of a
whole-document format of the same document; when no version was cached,
the handlers raise KeyError. -/
theorem C4_amended_downgrade (env : Env) (document : Document) (r : Range)
    (rs : List Range) (settings : Settings) (version : Version)
    (hs : getSettingsByDocument env.ws env.globalDefaults document.path
      = some settings)
    (hv : alookup env.versionLookup settings.workspaceFS = some version)
    (hlt : verGe version LINE_RANGES_MIN_VERSION = false) :
    rangeFormatting env document r = (true, formatting env document) ∧
    rangesFormatting env document rs = (true, formatting env document) := by
  constructor
  · simp only [rangeFormatting, hs, hv, hlt, Bool.false_eq_true, if_false]
    rfl
  · simp only [rangesFormatting, hs, hv, hlt, Bool.false_eq_true, if_false]
    rfl

/-- C4 (witness): the downgrade at a concrete workspace with cached
version 22.3.0. -/
theorem C4_amended_witness :
    rangeFormatting envModule sampleDoc sampleRange
      = (true, formatting envModule sampleDoc) ∧
    rangesFormatting envModule sampleDoc [sampleRange]
      = (true, formatting envModule sampleDoc) :=
  C4_amended_downgrade envModule sampleDoc sampleRange [sampleRange]
    settingsW (22, 3, 0) (by decide) (by decide) (by decide)

/-- C5 (counterexample): in the external-executable (path) mode there is
no exception handler around utils.run_path, so an exception while invoking
the tool propagates to the caller instead of resolving the request to no
edits. -/
theorem C5_counterexample :
    runToolOnDocument envPathErr sampleDoc true (helperExtraArgs sampleDoc [])
      = .error (.exception boomMsg) ∧
    formattingHelper envPathErr sampleDoc []
      = .error (.exception boomMsg) := by
  constructor
  · decide
  · decide

theorem toRunResultWithLogging_stdout (r : RpcRunResult) :
    (toRunResultWithLogging r).stdout = r.stdout := by
  cases hre : r.exception <;> simp [toRunResultWithLogging, hre]

/-- C5 (amended): an exception raised by the tool under the
alternate-interpreter rpc mode is not re-thrown — it comes back inside the
rpc result, is logged, becomes the stderr of the RunResult, and with empty
stdout the request resolves to no edits; an exception in the
external-executable path mode propagates to the caller, and an exception
in the in-process module mode is logged and then re-raised. -/
theorem C5_amended_error_propagation (env : Env) (document : Document)
    (args : List (List Char)) (settings : Settings)
    (hstd : env.isStdlibFile document.path = false)
    (hpy : env.isPython document.source = true)
    (hs : getSettingsByDocument env.ws env.globalDefaults document.path
      = some settings) :
    (settings.path = [] →
      settings.interpreter ≠ [] →
      env.isCurrentInterpreter settings.interpreter.headI = false →
      runToolOnDocument env document true (helperExtraArgs document args)
        = .ok (some (toRunResultWithLogging
            (env.runRpc
              (buildArgv settings (helperExtraArgs document args) true)))) ∧
      ((env.runRpc (buildArgv settings (helperExtraArgs document args) true)).stdout
          = [] →
        formattingHelper env document args = .ok none)) ∧
    (∀ e : PyErr, settings.path ≠ [] →
      env.runPath (buildArgv settings (helperExtraArgs document args) true)
        = .error e →
      runToolOnDocument env document true (helperExtraArgs document args)
        = .error e ∧
      formattingHelper env document args = .error e) ∧
    (∀ e : PyErr, settings.path = [] →
      (settings.interpreter = [] ∨
        env.isCurrentInterpreter settings.interpreter.headI = true) →
      env.runModule (buildArgv settings (helperExtraArgs document args) true)
        = .error e →
      runToolOnDocument env document true (helperExtraArgs document args)
        = .error e ∧
      formattingHelper env document args = .error e) := by
  have hstd2 : ¬ env.isStdlibFile document.path = true := by rw [hstd]; simp
  have hpy2 : ¬ ¬ env.isPython document.source = true := by rw [hpy]; simp
  refine ⟨?_, ?_, ?_⟩
  · intro hpath hint hcur
    have hrun : runToolOnDocument env document true (helperExtraArgs document args)
        = .ok (some (toRunResultWithLogging
          (env.runRpc (buildArgv settings (helperExtraArgs document args) true)))) := by
      simp only [runToolOnDocument, if_neg hstd2, if_neg hpy2, hs]
      rw [if_neg (show ¬settings.path ≠ [] from fun hc => hc hpath),
        if_pos ⟨hint, by rw [hcur]; simp⟩]
    refine ⟨hrun, fun hout => ?_⟩
    simp only [formattingHelper, hrun]
    rw [if_pos (show (toRunResultWithLogging
        (env.runRpc (buildArgv settings (helperExtraArgs document args) true))).stdout
        = [] from by rw [toRunResultWithLogging_stdout]; exact hout)]
  · intro e hpath herr
    have hrun : runToolOnDocument env document true (helperExtraArgs document args)
        = .error e := by
      simp only [runToolOnDocument, if_neg hstd2, if_neg hpy2, hs]
      rw [if_pos hpath, herr]
      rfl
    exact ⟨hrun, by simp only [formattingHelper, hrun]⟩
  · intro e hpath hmode herr
    have hnotrpc : ¬(settings.interpreter ≠ [] ∧
        ¬ env.isCurrentInterpreter settings.interpreter.headI = true) := by
      rcases hmode with h | h
      · exact fun hc => hc.1 h
      · exact fun hc => hc.2 h
    have hrun : runToolOnDocument env document true (helperExtraArgs document args)
        = .error e := by
      simp only [runToolOnDocument, if_neg hstd2, if_neg hpy2, hs]
      rw [if_neg (show ¬settings.path ≠ [] from fun hc => hc hpath),
        if_neg hnotrpc, herr]
    exact ⟨hrun, by simp only [formattingHelper, hrun]⟩

/-- C5 (witness): the rpc-mode soft failure at a concrete environment
whose remote tool raised. -/
theorem C5_amended_witness :
    runToolOnDocument envRpcExc sampleDoc true (helperExtraArgs sampleDoc [])
      = .ok (some (toRunResultWithLogging (envRpcExc.runRpc
          (buildArgv settingsR (helperExtraArgs sampleDoc []) true)))) ∧
    formattingHelper envRpcExc sampleDoc [] = .ok none := by
  have h := (C5_amended_error_propagation envRpcExc sampleDoc [] settingsR
    rfl rfl (by decide)).1 rfl (by decide) rfl
  exact ⟨h.1, h.2 rfl⟩

/-- C8: after any settings update the store is non-empty and consistent,
and on such a store the settings lookup returns exactly one record for
every document — the stored record of the nearest ancestor workspace root
when the walk finds one, otherwise a synthesized default. -/
theorem C8_settings_lookup_total (ws : List (Path × Settings))
    (g : GlobalSettings) (docPath : Option Path)
    (hne : ws ≠ [])
    (hwf : ∀ e ∈ ws, e.2.workspaceFS = e.1) :
    (getSettingsByDocument ws g docPath).isSome = true ∧
    (∀ p, docPath = some p → getDocumentKey ws p = none →
      getSettingsByDocument ws g docPath
        = some (synthesizedSettings g (pparent p))) ∧
    (∀ (g2 : GlobalSettings) (cwdKey : Path) (inputs : List Settings),
      updateWorkspaceSettings g2 cwdKey inputs ≠ [] ∧
      ∀ e ∈ updateWorkspaceSettings g2 cwdKey inputs, e.2.workspaceFS = e.1) := by
  refine ⟨?_, ?_, ?_⟩
  · cases docPath with
    | none =>
      cases ws with
      | nil => exact absurd rfl hne
      | cons e rest => rfl
    | some p =>
      rcases hk : getDocumentKey ws p with _ | key
      · simp [getSettingsByDocument, hk]
      · simp only [getSettingsByDocument, hk]
        refine alookup_isSome_of_mem ws key hwf ?_
        rw [getDocumentKey, if_neg hne] at hk
        exact findKeyFuel_mem _ p.length p key hk
  · intro p hp hk
    subst hp
    simp [getSettingsByDocument, hk]
  · intro g2 cwdKey inputs
    by_cases hi : inputs = []
    · subst hi
      have hev : updateWorkspaceSettings g2 cwdKey []
          = [(cwdKey, synthesizedSettings g2 cwdKey)] := rfl
      constructor
      · rw [hev]; exact List.cons_ne_nil _ _
      · intro e he
        rw [hev, List.mem_singleton] at he
        subst he
        rfl
    · constructor
      · simp [updateWorkspaceSettings, hi]
      · intro e he
        simp only [updateWorkspaceSettings, if_neg hi, List.mem_map] at he
        obtain ⟨s, _, hs⟩ := he
        subst hs
        rfl

/-- C8 (witness): the lookup at a concrete one-workspace store and a
document inside it. -/
theorem C8_witness :
    (getSettingsByDocument [(wsRoot, settingsW)] globalG (some docPath)).isSome
      = true :=
  (C8_settings_lookup_total [(wsRoot, settingsW)] globalG (some docPath)
    (by decide) (by decide)).1

/-- Any edits the formatting helper emits were computed by get_text_edits
with the UTF-16 encoding on the post-processed tool output. -/
theorem formattingHelper_edits_utf16 (env : Env) (document : Document)
    (args : List (List Char)) :
    ∀ edits, formattingHelper env document args = .ok (some edits) →
    ∃ result : RunResult,
      edits = get_text_edits document.source
        (processedOutput document result.stdout) .utf16
        (env.diff document.source (processedOutput document result.stdout)) := by
  intro edits h
  rcases hr : runToolOnDocument env document true (helperExtraArgs document args)
    with e | o
  · simp only [formattingHelper, hr] at h
    exact Except.noConfusion h
  · cases o with
    | none =>
      simp only [formattingHelper, hr] at h
      exact Option.noConfusion (Except.ok.inj h)
    | some result =>
      simp only [formattingHelper, hr] at h
      by_cases h1 : result.stdout = []
      · rw [if_pos h1] at h; simp at h
      · rw [if_neg h1] at h
        by_cases h2 : processedOutput document result.stdout = document.source
        · rw [if_pos h2] at h; simp at h
        · rw [if_neg h2] at h
          by_cases h3 : get_text_edits document.source
              (processedOutput document result.stdout) .utf16
              (env.diff document.source
                (processedOutput document result.stdout)) = []
          · rw [if_pos h3] at h; simp at h
          · rw [if_neg h3] at h
            simp only [Except.ok.injEq, Option.some.injEq] at h
            exact ⟨result, h.symm⟩

/-- C10: for each of the three formatting handlers, whatever edits the
request resolves to were produced by get_text_edits with the UTF-16
encoding — the single call site hard-codes PositionEncodingKind.Utf16,
independent of any client-negotiated encoding. -/
theorem C10_utf16_always (env : Env) (document : Document) (r : Range)
    (rs : List Range) :
    (∀ edits, formatting env document = .ok (some edits) →
      ∃ result : RunResult,
        edits = get_text_edits document.source
          (processedOutput document result.stdout) .utf16
          (env.diff document.source (processedOutput document result.stdout))) ∧
    (∀ b edits, rangeFormatting env document r = (b, .ok (some edits)) →
      ∃ result : RunResult,
        edits = get_text_edits document.source
          (processedOutput document result.stdout) .utf16
          (env.diff document.source (processedOutput document result.stdout))) ∧
    (∀ b edits, rangesFormatting env document rs = (b, .ok (some edits)) →
      ∃ result : RunResult,
        edits = get_text_edits document.source
          (processedOutput document result.stdout) .utf16
          (env.diff document.source (processedOutput document result.stdout))) := by
  refine ⟨?_, ?_, ?_⟩
  · intro edits h
    exact formattingHelper_edits_utf16 env document [] edits h
  · intro b edits h
    simp only [rangeFormatting] at h
    split at h
    · simp only [Prod.mk.injEq] at h
      exact absurd h.2 (by simp)
    · split at h
      · simp only [Prod.mk.injEq] at h
        exact absurd h.2 (by simp)
      · split at h
        · simp only [Prod.mk.injEq] at h
          exact formattingHelper_edits_utf16 env document _ edits h.2
        · simp only [Prod.mk.injEq] at h
          exact formattingHelper_edits_utf16 env document _ edits h.2
  · intro b edits h
    simp only [rangesFormatting] at h
    split at h
    · simp only [Prod.mk.injEq] at h
      exact absurd h.2 (by simp)
    · split at h
      · simp only [Prod.mk.injEq] at h
        exact absurd h.2 (by simp)
      · split at h
        · simp only [Prod.mk.injEq] at h
          exact formattingHelper_edits_utf16 env document _ edits h.2
        · simp only [Prod.mk.injEq] at h
          exact formattingHelper_edits_utf16 env document _ edits h.2

/-- C10 (witness): the concrete environment resolves to edits that are the
UTF-16 get_text_edits output for the tool result. -/
theorem C10_witness :
    ∃ result : RunResult,
      get_text_edits sampleOld sampleNew .utf16 sampleOps
        = get_text_edits sampleDoc.source
            (processedOutput sampleDoc result.stdout) .utf16
            (envModule.diff sampleDoc.source
              (processedOutput sampleDoc result.stdout)) :=
  (C10_utf16_always envModule sampleDoc sampleRange []).1
    (get_text_edits sampleOld sampleNew .utf16 sampleOps) (by decide)

end BlackFmt
